import Mathlib

/-!
Shallow embedding of the GitHub repository scraper pipeline
(src/task2_and_task3/main.py and src/task2_and_task3/db_actions.py):
the commit aggregation loop, repository processing, the gather-based
collection step, the batched bulk-insert layer, and the assembly of the
three persisted row sets in main.
-/

set_option autoImplicit false

/-- A raw commit record as returned by the commits endpoint, at the
granularity the scraper reads it. `author = none` models a commit whose
"author" field is absent or null (falsy in the source's truthiness test
`if commit.get("author")`); `author = some l` models a truthy author
object whose "login" lookup yields `l` (`l = none` when the login key is
missing). -/
structure RawCommit where
  author : Option (Option String)
  deriving DecidableEq

/-- The dict update `authors_count[author] = authors_count.get(author, 0) + 1`
of main.py, on an insertion-ordered association list standing for the
Python dict. -/
def bump : List (String × Nat) → String → List (String × Nat)
  | [], a => [(a, 1)]
  | (k, v) :: rest, a =>
    if k = a then (k, v + 1) :: rest else (k, v) :: bump rest a

/-- The commit-aggregation loop of `GithubReposScraper._process_repository`
(main.py lines 107-113): commits whose author field is absent or null are
skipped by the truthiness test; a present author object lacking a login is
bucketed under "unknown". -/
def aggregateCommits (commits : List RawCommit) : List (String × Nat) :=
  commits.foldl
    (fun m c =>
      match c.author with
      | none => m
      | some l => bump m (l.getD "unknown"))
    []

/-- Commit count per author (the RepositoryAuthorCommitsNum dataclass). -/
structure RepositoryAuthorCommitsNum where
  author : String
  commits_num : Nat
  deriving DecidableEq

/-- A GitHub repository with metadata and commit details (the Repository
dataclass). `language` is an Option String because the source stores the
raw JSON value, which may be null at runtime. -/
structure Repository where
  name : String
  owner : String
  position : Nat
  stars : Nat
  watchers : Nat
  forks : Nat
  language : Option String
  authors_commits_num_today : List RepositoryAuthorCommitsNum
  deriving DecidableEq

/-- A raw repository record from the search endpoint, at the granularity
the scraper reads it: each field the scraper touches is optional (the key
may be absent from the JSON object); `language` is doubly optional to
distinguish an absent key (`none`) from a key present with a null value
(`some none`). -/
structure RawRepo where
  name : Option String
  owner_login : Option String
  stargazers_count : Option Nat
  watchers_count : Option Nat
  forks_count : Option Nat
  language : Option (Option String)
  deriving DecidableEq

/-- The error of the scraping stage: a KeyError on a required field of a
decoded record. -/
inductive ScrapeError where
  | missingKey (key : String)
  deriving DecidableEq

/-- `GithubReposScraper._process_repository` (main.py lines 98-131): read
the name with an "UNKNOWN" default, require the owner login, fetch the
repository's commits through `commitsFor`, aggregate the commit authors,
require the three count fields, read the language with an "Unknown"
default that applies only when the key is absent, and build the
Repository. A missing required field raises KeyError, modelled as an
error result. -/
def process_repository (commitsFor : String → String → List RawCommit)
    (repo_data : RawRepo) (position : Nat) : Except ScrapeError Repository :=
  let name := repo_data.name.getD "UNKNOWN"
  match repo_data.owner_login with
  | none => .error (.missingKey "login")
  | some owner =>
    let commits := commitsFor owner name
    let authors_commits :=
      (aggregateCommits commits).map (fun p => RepositoryAuthorCommitsNum.mk p.1 p.2)
    match repo_data.stargazers_count with
    | none => .error (.missingKey "stargazers_count")
    | some stars =>
      match repo_data.watchers_count with
      | none => .error (.missingKey "watchers_count")
      | some watchers =>
        match repo_data.forks_count with
        | none => .error (.missingKey "forks_count")
        | some forks =>
          .ok
            { name := name
              owner := owner
              position := position
              stars := stars
              watchers := watchers
              forks := forks
              language := repo_data.language.getD (some "Unknown")
              authors_commits_num_today := authors_commits }

/-- `asyncio.gather` over already-created tasks, at the level of results:
the list of all results when every task succeeds, a failure otherwise. -/
def gatherE {ε α : Type} : List (Except ε α) → Except ε (List α)
  | [] => .ok []
  | .error e :: _ => .error e
  | .ok a :: rest => (gatherE rest).map (fun l => a :: l)

/-- `GithubReposScraper.get_repositories` (main.py lines 133-137) applied
to the list the search endpoint returned: one `process_repository` task
per item with the 1-based enumeration index as position, gathered. -/
def get_repositories (commitsFor : String → String → List RawCommit)
    (top_repos : List RawRepo) : Except ScrapeError (List Repository) :=
  gatherE (top_repos.enum.map (fun p => process_repository commitsFor p.2 (p.1 + 1)))

/-- The batching loop of `ClickHouseManager._execute_query` (db_actions.py
lines 38-46): the slices `values[i:i+batch_size]` for i = 0, b, 2b, .... -/
def chunks {α : Type} (b : Nat) : List α → List (List α)
  | [] => []
  | x :: xs =>
    if _h : b = 0 then []
    else (x :: xs).take b :: chunks b ((x :: xs).drop b)
termination_by l => l.length
decreasing_by
  simp only [List.length_drop, List.length_cons]
  omega

/-- Outcome of one `_execute_query` call against a client whose per-chunk
success is decided by the oracle `insertOk`: the chunks for which an
insert statement was issued, the chunks the client committed, and whether
the whole call succeeded (`false` models a propagated exception). -/
structure ExecResult (ρ : Type) where
  attempted : List (List ρ)
  written : List (List ρ)
  ok : Bool
  deriving DecidableEq

/-- Sequential execution of the insert statements of `_execute_query`, one
per chunk: the first failing chunk is attempted but not committed, the
remaining chunks are not attempted, and the failure propagates. -/
def execChunkList {ρ : Type} (insertOk : List ρ → Bool) :
    List (List ρ) → ExecResult ρ
  | [] => ⟨[], [], true⟩
  | c :: cs =>
    if insertOk c then
      let r := execChunkList insertOk cs
      ⟨c :: r.attempted, c :: r.written, r.ok⟩
    else
      ⟨[c], [], false⟩

/-- `ClickHouseManager._execute_query` (db_actions.py lines 38-46):
split the values into batches of `batch_size` and execute one insert per
batch sequentially. -/
def execute_query {ρ : Type} (insertOk : List ρ → Bool) (values : List ρ)
    (batch_size : Nat) : ExecResult ρ :=
  execChunkList insertOk (chunks batch_size values)

/-- A row of the test.repositories table, the tuple
(name, owner, stars, watchers, forks, language, updated) built in main. -/
structure RepoRow where
  name : String
  owner : String
  stars : Nat
  watchers : Nat
  forks : Nat
  language : Option String
  updated : String
  deriving DecidableEq

/-- A row of the test.repositories_positions table, the tuple
(date, repo, position) built in main. -/
structure PositionRow where
  date : String
  repo : String
  position : Nat
  deriving DecidableEq

/-- A row of the test.repositories_authors_commits table, the tuple
(date, repo, author, commits_num) built in main. -/
structure CommitRow where
  date : String
  repo : String
  author : String
  commits_num : Nat
  deriving DecidableEq

/-- One bulk INSERT statement issued to ClickHouse, tagged by its
destination table and carrying the rows of one batch. -/
inductive InsertCall where
  | repositories (rows : List RepoRow)
  | positions (rows : List PositionRow)
  | commits (rows : List CommitRow)
  deriving DecidableEq

/-- `ClickHouseManager.save_repositories` (db_actions.py lines 14-20):
no-op on an empty input, otherwise one `_execute_query` call. Returns the
insert calls issued and whether the call succeeded. -/
def save_repositories (batch_size : Nat) (insertOk : List RepoRow → Bool)
    (repositories : List RepoRow) : List InsertCall × Bool :=
  if repositories = [] then ([], true)
  else
    let r := execute_query insertOk repositories batch_size
    (r.attempted.map InsertCall.repositories, r.ok)

/-- `ClickHouseManager.save_positions` (db_actions.py lines 22-28). -/
def save_positions (batch_size : Nat) (insertOk : List PositionRow → Bool)
    (positions : List PositionRow) : List InsertCall × Bool :=
  if positions = [] then ([], true)
  else
    let r := execute_query insertOk positions batch_size
    (r.attempted.map InsertCall.positions, r.ok)

/-- `ClickHouseManager.save_commits` (db_actions.py lines 30-36). -/
def save_commits (batch_size : Nat) (insertOk : List CommitRow → Bool)
    (commits : List CommitRow) : List InsertCall × Bool :=
  if commits = [] then ([], true)
  else
    let r := execute_query insertOk commits batch_size
    (r.attempted.map InsertCall.commits, r.ok)

/-- The three append-only destination tables of the analytical store. -/
structure Store where
  repositories : List RepoRow
  repositories_positions : List PositionRow
  repositories_authors_commits : List CommitRow
  deriving DecidableEq

/-- Append the rows of one insert call to its destination table. -/
def applyCall (st : Store) : InsertCall → Store
  | .repositories rows => { st with repositories := st.repositories ++ rows }
  | .positions rows =>
    { st with repositories_positions := st.repositories_positions ++ rows }
  | .commits rows =>
    { st with repositories_authors_commits := st.repositories_authors_commits ++ rows }

/-- Apply a sequence of insert calls to the store. -/
def applyCalls (st : Store) (calls : List InsertCall) : Store :=
  calls.foldl applyCall st

/-- The repo_data comprehension of main (main.py line 153). -/
def buildRepoRows (repos_data : List Repository) (date_today : String) :
    List RepoRow :=
  repos_data.map
    (fun r => RepoRow.mk r.name r.owner r.stars r.watchers r.forks r.language date_today)

/-- The positions_data comprehension of main (main.py line 154). -/
def buildPositionRows (repos_data : List Repository) (date_today : String) :
    List PositionRow :=
  repos_data.map (fun r => PositionRow.mk date_today r.name r.position)

/-- The commits_data comprehension of main (main.py line 155). -/
def buildCommitRows (repos_data : List Repository) (date_today : String) :
    List CommitRow :=
  repos_data.flatMap
    (fun r =>
      r.authors_commits_num_today.map
        (fun ac => CommitRow.mk date_today r.name ac.author ac.commits_num))

/-- `main` (main.py lines 149-161): collect the repositories; on success
capture one timestamp, assemble the three row sets and issue the three
save operations; a failed collection reaches no save call. Returns the
insert calls issued by the run and the scrape error, when there is one. -/
def mainCalls (commitsFor : String → String → List RawCommit)
    (top_repos : List RawRepo) (date_today : String) (batch_size : Nat)
    (okR : List RepoRow → Bool) (okP : List PositionRow → Bool)
    (okC : List CommitRow → Bool) : List InsertCall × Option ScrapeError :=
  match get_repositories commitsFor top_repos with
  | .error e => ([], some e)
  | .ok repos_data =>
    let r1 := save_repositories batch_size okR (buildRepoRows repos_data date_today)
    let r2 := save_positions batch_size okP (buildPositionRows repos_data date_today)
    let r3 := save_commits batch_size okC (buildCommitRows repos_data date_today)
    (r1.1 ++ r2.1 ++ r3.1, none)

/-- The required fields of a raw repository record: the owner login and the
three count fields; name and language have defaults in the source. -/
def wellFormed (r : RawRepo) : Bool :=
  r.owner_login.isSome && r.stargazers_count.isSome
    && r.watchers_count.isSome && r.forks_count.isSome

/-- Modelled from the spec: the RateGate rate cap is implemented by an
external library (aiolimiter's AsyncLimiter, constructed in main.py line
55, used in line 63) whose code is not part of this repository; per the
spec it admits "at most R acquisitions per rolling 1-second window".
`windowCount` counts the acquisition timestamps falling in the rolling
window of length 1 starting at `t`. -/
def windowCount (times : List ℚ) (t : ℚ) : Nat :=
  times.countP (fun x => decide (t ≤ x) && decide (x < t + 1))

/-- Modelled from the spec: a trace of acquisition timestamps obeys rate
cap `R` when every rolling 1-second window admits at most `R`
acquisitions. -/
def rateAdmissible (R : Nat) (times : List ℚ) : Prop :=
  ∀ t : ℚ, windowCount times t ≤ R

/-- First-match lookup of an author's count in the association list
standing for the Python dict (0 when absent). -/
def countOf : List (String × Nat) → String → Nat
  | [], _ => 0
  | (k, v) :: rest, a => if k = a then v else countOf rest a

/-- Sum of all counts in the aggregation dict. -/
def sumCounts (m : List (String × Nat)) : Nat := (m.map Prod.snd).sum

/-- The bucket a commit record is counted under: `none` when the record is
skipped by the truthiness test, otherwise the login with the "unknown"
default. -/
def effAuthor (c : RawCommit) : Option String :=
  c.author.map (fun l => l.getD "unknown")

/-! Helper lemmas about the aggregation dict. -/

theorem sumCounts_nil : sumCounts [] = 0 := rfl

theorem sumCounts_cons (k : String) (v : Nat) (rest : List (String × Nat)) :
    sumCounts ((k, v) :: rest) = v + sumCounts rest := by
  simp [sumCounts]

theorem countOf_bump (m : List (String × Nat)) (a b : String) :
    countOf (bump m a) b = countOf m b + (if a = b then 1 else 0) := by
  induction m with
  | nil =>
    by_cases h : a = b <;> simp [bump, countOf, h]
  | cons kv rest ih =>
    obtain ⟨k, v⟩ := kv
    by_cases hk : k = a
    · subst hk
      by_cases hb : k = b <;> simp [bump, countOf, hb]
    · by_cases hb : k = b
      · subst hb
        have hab : ¬a = k := fun h => hk h.symm
        simp [bump, countOf, hk, hab]
      · simp [bump, countOf, hk, hb, ih]

theorem sumCounts_bump (m : List (String × Nat)) (a : String) :
    sumCounts (bump m a) = sumCounts m + 1 := by
  induction m with
  | nil => rfl
  | cons kv rest ih =>
    obtain ⟨k, v⟩ := kv
    by_cases hk : k = a
    · simp [bump, hk, sumCounts_cons]
      omega
    · simp [bump, hk, sumCounts_cons, ih]
      omega

theorem aggregate_go_sum (cs : List RawCommit) (m : List (String × Nat)) :
    sumCounts
      (cs.foldl
        (fun m c =>
          match c.author with
          | none => m
          | some l => bump m (l.getD "unknown"))
        m)
      = sumCounts m + cs.countP (fun c => c.author.isSome) := by
  induction cs generalizing m with
  | nil => simp
  | cons c cs ih =>
    cases h : c.author with
    | none => simp [List.foldl_cons, h, ih, List.countP_cons]
    | some l =>
      simp [List.foldl_cons, h, ih, List.countP_cons, sumCounts_bump]
      omega

theorem aggregate_go_countOf (a : String) (cs : List RawCommit)
    (m : List (String × Nat)) :
    countOf
      (cs.foldl
        (fun m c =>
          match c.author with
          | none => m
          | some l => bump m (l.getD "unknown"))
        m)
      a
      = countOf m a + cs.countP (fun c => decide (effAuthor c = some a)) := by
  induction cs generalizing m with
  | nil => simp
  | cons c cs ih =>
    cases h : c.author with
    | none => simp [List.foldl_cons, h, ih, List.countP_cons, effAuthor]
    | some l =>
      by_cases hl : l.getD "unknown" = a
      · simp [List.foldl_cons, h, ih, List.countP_cons, effAuthor, countOf_bump, hl]
        omega
      · simp [List.foldl_cons, h, ih, List.countP_cons, effAuthor, countOf_bump, hl]

/-- The commit list of the spec's aggregation example: two commits by "a",
one with a null author, one by "b". -/
def exCommits : List RawCommit :=
  [⟨some (some "a")⟩, ⟨some (some "a")⟩, ⟨none⟩, ⟨some (some "b")⟩]

/-- C1, counterexample: on the spec's example input
[author "a", author "a", author null, author "b"], the aggregation loop of
_process_repository drops the null-author record instead of bucketing it
under "unknown": the result is counts a:2, b:1 with no "unknown" bucket,
and the sum of the counts is 3, not the input length 4. -/
theorem C1_counterexample :
    aggregateCommits exCommits = [("a", 2), ("b", 1)] ∧
    countOf (aggregateCommits exCommits) "unknown" = 0 ∧
    sumCounts (aggregateCommits exCommits) ≠ exCommits.length := by
  decide

/-- C1 (amended): the commit aggregation groups by author login only among
records whose author field is present and non-null; a record whose author
object lacks a login is bucketed under "unknown"; records with an absent
or null author are dropped, so the sum of all emitted counts equals the
number of input records having an attributable author object (each
bucket's count being the number of records mapping to it); the spec's
example input yields counts a:2, b:1, and an empty input yields an empty
result. -/
theorem C1_aggregation_amended :
    (∀ cs : List RawCommit,
      sumCounts (aggregateCommits cs) = cs.countP (fun c => c.author.isSome)) ∧
    (∀ (cs : List RawCommit) (a : String),
      countOf (aggregateCommits cs) a
        = cs.countP (fun c => decide (effAuthor c = some a))) ∧
    aggregateCommits exCommits = [("a", 2), ("b", 1)] ∧
    aggregateCommits [] = [] := by
  refine ⟨fun cs => ?_, fun cs a => ?_, by decide, rfl⟩
  · have h := aggregate_go_sum cs []
    simpa [aggregateCommits, sumCounts] using h
  · have h := aggregate_go_countOf a cs []
    simpa [aggregateCommits, countOf] using h

/-! Helper lemmas about the batching loop. -/

theorem chunks_nil {α : Type} (b : Nat) : chunks b ([] : List α) = [] := by
  rw [chunks]

theorem chunks_cons_eq {α : Type} (b : Nat) (hb : b ≠ 0) (x : α) (xs : List α) :
    chunks b (x :: xs) = (x :: xs).take b :: chunks b ((x :: xs).drop b) := by
  rw [chunks]
  simp [hb]

theorem chunks_flatten_aux {α : Type} (b : Nat) (hb : b ≠ 0) :
    ∀ (n : Nat) (l : List α), l.length ≤ n → (chunks b l).flatten = l := by
  intro n
  induction n with
  | zero =>
    intro l hl
    have hnil : l = [] := List.eq_nil_of_length_eq_zero (Nat.le_zero.mp hl)
    subst hnil
    simp [chunks_nil]
  | succ n ih =>
    intro l hl
    cases l with
    | nil => simp [chunks_nil]
    | cons x xs =>
      have hdrop : ((x :: xs).drop b).length ≤ n := by
        simp only [List.length_drop, List.length_cons]
        have hb1 : 1 ≤ b := Nat.one_le_iff_ne_zero.mpr hb
        simp only [List.length_cons] at hl
        omega
      rw [chunks_cons_eq b hb x xs, List.flatten_cons, ih _ hdrop,
        List.take_append_drop]

theorem chunks_flatten {α : Type} (b : Nat) (hb : b ≠ 0) (l : List α) :
    (chunks b l).flatten = l :=
  chunks_flatten_aux b hb l.length l le_rfl

theorem ceil_div_succ (b n : Nat) (hb : b ≠ 0) (hn : 0 < n) :
    (n + b - 1) / b = (n - b + b - 1) / b + 1 := by
  have hb1 : 1 ≤ b := Nat.one_le_iff_ne_zero.mpr hb
  have e1 : n + b - 1 = (n - 1) + b := by omega
  rw [e1, Nat.add_div_right _ (by omega)]
  by_cases hbn : b ≤ n
  · have e2 : n - b + b - 1 = n - 1 := by omega
    rw [e2]
  · have e2 : n - b + b - 1 = b - 1 := by omega
    rw [e2]
    have h1 : (n - 1) / b = 0 := Nat.div_eq_of_lt (by omega)
    have h2 : (b - 1) / b = 0 := Nat.div_eq_of_lt (by omega)
    rw [h1, h2]

theorem chunks_length_aux {α : Type} (b : Nat) (hb : b ≠ 0) :
    ∀ (n : Nat) (l : List α), l.length ≤ n →
      (chunks b l).length = (l.length + b - 1) / b := by
  intro n
  induction n with
  | zero =>
    intro l hl
    have hnil : l = [] := List.eq_nil_of_length_eq_zero (Nat.le_zero.mp hl)
    subst hnil
    have hz : (b - 1) / b = 0 := Nat.div_eq_of_lt (by omega)
    simp [chunks_nil, hz]
  | succ n ih =>
    intro l hl
    cases l with
    | nil =>
      have hz : (b - 1) / b = 0 := Nat.div_eq_of_lt (by omega)
      simp [chunks_nil, hz]
    | cons x xs =>
      have hb1 : 1 ≤ b := Nat.one_le_iff_ne_zero.mpr hb
      have hdrop : ((x :: xs).drop b).length ≤ n := by
        simp only [List.length_drop, List.length_cons]
        simp only [List.length_cons] at hl
        omega
      rw [chunks_cons_eq b hb x xs, List.length_cons, ih _ hdrop]
      simp only [List.length_drop, List.length_cons]
      exact (ceil_div_succ b (xs.length + 1) hb (by omega)).symm

theorem chunks_length {α : Type} (b : Nat) (hb : b ≠ 0) (l : List α) :
    (chunks b l).length = (l.length + b - 1) / b :=
  chunks_length_aux b hb l.length l le_rfl

theorem chunks_mem_length_aux {α : Type} (b : Nat) (hb : b ≠ 0) :
    ∀ (n : Nat) (l : List α), l.length ≤ n →
      ∀ c ∈ chunks b l, c.length ≤ b := by
  intro n
  induction n with
  | zero =>
    intro l hl c hc
    have hnil : l = [] := List.eq_nil_of_length_eq_zero (Nat.le_zero.mp hl)
    subst hnil
    rw [chunks_nil] at hc
    exact absurd hc (List.not_mem_nil c)
  | succ n ih =>
    intro l hl c hc
    cases l with
    | nil =>
      rw [chunks_nil] at hc
      exact absurd hc (List.not_mem_nil c)
    | cons x xs =>
      rw [chunks_cons_eq b hb x xs] at hc
      rcases List.mem_cons.mp hc with hc | hc
      · subst hc
        simp only [List.length_take]
        omega
      · have hdrop : ((x :: xs).drop b).length ≤ n := by
          simp only [List.length_drop, List.length_cons]
          have hb1 : 1 ≤ b := Nat.one_le_iff_ne_zero.mpr hb
          simp only [List.length_cons] at hl
          omega
        exact ih _ hdrop c hc

theorem execChunkList_allOk {ρ : Type} (cs : List (List ρ)) :
    execChunkList (fun _ => true) cs = ⟨cs, cs, true⟩ := by
  induction cs with
  | nil => rfl
  | cons c cs ih => simp [execChunkList, ih]

/-- C2: for every batch size b > 0 and input list of n records, one
_execute_query call issues exactly ceil(n / b) bulk-insert calls (here
with a client that accepts every chunk), each carrying a contiguous slice
of at most b records, and concatenating the slices in issue order
reproduces the original input in its original order. -/
theorem C2_batched_inserts (ρ : Type) (values : List ρ) (b : Nat) (hb : 0 < b) :
    (execute_query (fun _ => true) values b).attempted = chunks b values ∧
    (chunks b values).length = (values.length + b - 1) / b ∧
    (∀ c ∈ chunks b values, c.length ≤ b) ∧
    (chunks b values).flatten = values := by
  have hb0 : b ≠ 0 := Nat.pos_iff_ne_zero.mp hb
  refine ⟨?_, chunks_length b hb0 values,
    chunks_mem_length_aux b hb0 values.length values le_rfl,
    chunks_flatten b hb0 values⟩
  simp [execute_query, execChunkList_allOk]

/-- C2 witness: the theorem instantiated at values [0, 1, 2] with batch
size 2, which splits into chunks [0, 1] and [2]. -/
theorem C2_batched_inserts_witness :
    (0 : Nat) < 2 ∧
    ((execute_query (fun _ => true) ([0, 1, 2] : List Nat) 2).attempted
        = chunks 2 [0, 1, 2] ∧
      (chunks 2 ([0, 1, 2] : List Nat)).length
        = (([0, 1, 2] : List Nat).length + 2 - 1) / 2 ∧
      (∀ c ∈ chunks 2 ([0, 1, 2] : List Nat), c.length ≤ 2) ∧
      (chunks 2 ([0, 1, 2] : List Nat)).flatten = [0, 1, 2]) :=
  ⟨by decide, C2_batched_inserts Nat [0, 1, 2] 2 (by decide)⟩

/-- C4: each of the three save operations, called with an empty input list,
issues zero insert calls against the store (the guard returns before any
_execute_query call) and leaves the store state unchanged. -/
theorem C4_empty_input_no_writes :
    (∀ (b : Nat) (ok : List RepoRow → Bool),
      (save_repositories b ok []).1 = [] ∧
      ∀ st : Store, applyCalls st (save_repositories b ok []).1 = st) ∧
    (∀ (b : Nat) (ok : List PositionRow → Bool),
      (save_positions b ok []).1 = [] ∧
      ∀ st : Store, applyCalls st (save_positions b ok []).1 = st) ∧
    (∀ (b : Nat) (ok : List CommitRow → Bool),
      (save_commits b ok []).1 = [] ∧
      ∀ st : Store, applyCalls st (save_commits b ok []).1 = st) := by
  refine ⟨fun b ok => ⟨?_, fun st => ?_⟩, fun b ok => ⟨?_, fun st => ?_⟩,
    fun b ok => ⟨?_, fun st => ?_⟩⟩ <;>
    simp [save_repositories, save_positions, save_commits, applyCalls]

/-- Executing a chunk list whose first `i` chunks are accepted and whose
i-th chunk is rejected attempts exactly the first i+1 chunks, commits
exactly the first i, and fails. -/
theorem execChunkList_fail_at {ρ : Type} (insertOk : List ρ → Bool) :
    ∀ (cs : List (List ρ)) (i : Nat), i < cs.length →
      (∀ j, j < i → insertOk (cs.getD j []) = true) →
      insertOk (cs.getD i []) = false →
      execChunkList insertOk cs = ⟨cs.take (i + 1), cs.take i, false⟩ := by
  intro cs
  induction cs with
  | nil =>
    intro i hi
    exact absurd hi (by simp)
  | cons c cs ih =>
    intro i hi hok hfail
    cases i with
    | zero =>
      have hc : insertOk c = false := by simpa using hfail
      simp [execChunkList, hc]
    | succ i =>
      have hc : insertOk c = true := by simpa using hok 0 (Nat.succ_pos i)
      have hi' : i < cs.length := Nat.lt_of_succ_lt_succ hi
      have ih' := ih i hi'
        (fun j hji => by simpa using hok (j + 1) (Nat.succ_lt_succ hji))
        (by simpa using hfail)
      simp [execChunkList, hc, ih']

/-- C5: when the input of one load call is split into chunks and the bulk
insert of chunk i (0-based) fails while every earlier chunk succeeds, the
chunks after i are never attempted, the failure propagates (ok = false,
the StorageWriteError), and the chunks before i remain written: a partial
write of a prefix of the chunks is the outcome of the failed call. -/
theorem C5_chunk_failure_prefix (ρ : Type) (insertOk : List ρ → Bool)
    (values : List ρ) (b i : Nat) (hi : i < (chunks b values).length)
    (hok : ∀ j, j < i → insertOk ((chunks b values).getD j []) = true)
    (hfail : insertOk ((chunks b values).getD i []) = false) :
    (execute_query insertOk values b).attempted = (chunks b values).take (i + 1) ∧
    (execute_query insertOk values b).written = (chunks b values).take i ∧
    (execute_query insertOk values b).ok = false := by
  have h := execChunkList_fail_at insertOk (chunks b values) i hi hok hfail
  rw [execute_query, h]
  exact ⟨rfl, rfl, rfl⟩

/-- C5 witness: values [1..6] with batch size 2 split into chunks [1, 2],
[3, 4], [5, 6]; the client rejects [3, 4] (chunk index 1): the call
attempts the first two chunks only, commits only [1, 2], and fails. -/
theorem C5_chunk_failure_prefix_witness :
    (1 < (chunks 2 ([1, 2, 3, 4, 5, 6] : List Nat)).length) ∧
    ((execute_query (fun c => decide (c ≠ [3, 4])) [1, 2, 3, 4, 5, 6] 2).attempted
        = (chunks 2 ([1, 2, 3, 4, 5, 6] : List Nat)).take 2 ∧
      (execute_query (fun c => decide (c ≠ [3, 4])) [1, 2, 3, 4, 5, 6] 2).written
        = (chunks 2 ([1, 2, 3, 4, 5, 6] : List Nat)).take 1 ∧
      (execute_query (fun c => decide (c ≠ [3, 4])) [1, 2, 3, 4, 5, 6] 2).ok
        = false) := by
  have hch : chunks 2 ([1, 2, 3, 4, 5, 6] : List Nat) = [[1, 2], [3, 4], [5, 6]] := by
    simp [chunks]
  refine ⟨by rw [hch]; decide,
    C5_chunk_failure_prefix Nat (fun c => decide (c ≠ [3, 4])) [1, 2, 3, 4, 5, 6]
      2 1 (by rw [hch]; decide) ?_ (by rw [hch]; decide)⟩
  intro j hj
  have hj0 : j = 0 := by omega
  subst hj0
  rw [hch]
  decide

/-! Helper lemmas about process_repository and the gather step. -/

theorem process_repository_eq_ok (c : String → String → List RawCommit)
    (n : Option String) (o : String) (s w f : Nat)
    (lang : Option (Option String)) (pos : Nat) :
    process_repository c ⟨n, some o, some s, some w, some f, lang⟩ pos
      = .ok
          ⟨n.getD "UNKNOWN", o, pos, s, w, f, lang.getD (some "Unknown"),
            (aggregateCommits (c o (n.getD "UNKNOWN"))).map
              (fun p => RepositoryAuthorCommitsNum.mk p.1 p.2)⟩ := rfl

theorem process_repository_position (c : String → String → List RawCommit)
    (r : RawRepo) (pos : Nat) (repo : Repository)
    (h : process_repository c r pos = .ok repo) : repo.position = pos := by
  rcases r with ⟨n, ol, sc, wc, fc, lang⟩
  cases ol <;> cases sc <;> cases wc <;> cases fc <;>
    simp [process_repository] at h
  subst h
  rfl

theorem process_repository_isOk (c : String → String → List RawCommit)
    (r : RawRepo) (pos : Nat) (h : wellFormed r = true) :
    ∃ repo, process_repository c r pos = .ok repo := by
  rcases r with ⟨n, ol, sc, wc, fc, lang⟩
  cases ol <;> cases sc <;> cases wc <;> cases fc <;>
    simp [wellFormed] at h
  exact ⟨_, process_repository_eq_ok _ _ _ _ _ _ _ _⟩

theorem process_repository_isError (c : String → String → List RawCommit)
    (r : RawRepo) (pos : Nat) (h : wellFormed r = false) :
    ∃ e, process_repository c r pos = .error e := by
  rcases r with ⟨n, ol, sc, wc, fc, lang⟩
  cases ol <;> cases sc <;> cases wc <;> cases fc <;>
    simp [wellFormed] at h
  all_goals exact ⟨_, rfl⟩

theorem gatherE_ok_of_forall {ε β α : Type} (f : β → Except ε α) :
    ∀ l : List β, (∀ x ∈ l, ∃ y, f x = .ok y) →
      ∃ rs : List α, gatherE (l.map f) = .ok rs ∧ rs.length = l.length ∧
        ∀ i (hi : i < l.length) (hi2 : i < rs.length), f l[i] = .ok rs[i] := by
  intro l
  induction l with
  | nil =>
    intro _
    exact ⟨[], rfl, rfl, fun i hi _ => absurd hi (by simp)⟩
  | cons x xs ih =>
    intro h
    obtain ⟨y, hy⟩ := h x (List.mem_cons_self x xs)
    obtain ⟨rs, h1, h2, h3⟩ := ih (fun z hz => h z (List.mem_cons_of_mem x hz))
    refine ⟨y :: rs, ?_, by simp [h2], ?_⟩
    · simp [List.map_cons, gatherE, hy, h1, Except.map]
    · intro i hi hi2
      cases i with
      | zero => simpa using hy
      | succ i =>
        simpa using h3 i (by simpa using hi) (by simpa using hi2)

theorem gatherE_error_of_exists {ε α : Type} :
    ∀ l : List (Except ε α), (∃ x ∈ l, ∃ e, x = .error e) →
      ∃ e, gatherE l = .error e := by
  intro l
  induction l with
  | nil =>
    rintro ⟨x, hx, _⟩
    exact absurd hx (List.not_mem_nil x)
  | cons x xs ih =>
    rintro ⟨z, hz, e, he⟩
    cases x with
    | error e2 => exact ⟨e2, rfl⟩
    | ok a =>
      rcases List.mem_cons.mp hz with hzx | hzxs
      · rw [hzx] at he
        exact absurd he (by simp)
      · obtain ⟨e3, h3⟩ := ih ⟨z, hzxs, e, he⟩
        exact ⟨e3, by simp [gatherE, h3, Except.map]⟩

/-- C3: when the remote list call returns exactly the items of top_repos
and every record is well-formed, get_repositories returns exactly that
many results, and the i-th result (0-based index i) carries position i+1:
positions are strictly increasing from 1 to the limit in input order,
assigned from the enumeration index rather than recomputed from star
counts (the star values play no role in the statement). -/
theorem C3_positions_follow_input_order (commitsFor : String → String → List RawCommit)
    (top_repos : List RawRepo) (h : ∀ r ∈ top_repos, wellFormed r = true) :
    ∃ rs : List Repository, get_repositories commitsFor top_repos = .ok rs ∧
      rs.length = top_repos.length ∧
      ∀ i (hi : i < rs.length), rs[i].position = i + 1 := by
  have hall : ∀ p ∈ top_repos.enum,
      ∃ y, process_repository commitsFor p.2 (p.1 + 1) = .ok y := by
    intro p hp
    have hmem : p.2 ∈ top_repos := by
      have h2 := List.mem_enum_iff_getElem?.mp hp
      exact List.mem_iff_getElem?.mpr ⟨p.1, h2⟩
    exact process_repository_isOk commitsFor p.2 (p.1 + 1) (h p.2 hmem)
  obtain ⟨rs, h1, h2, h3⟩ :=
    gatherE_ok_of_forall (fun p => process_repository commitsFor p.2 (p.1 + 1))
      top_repos.enum hall
  refine ⟨rs, ?_, ?_, ?_⟩
  · rw [get_repositories]
    exact h1
  · rw [h2, List.enum_length]
  · intro i hi
    have hi1 : i < top_repos.enum.length := by rw [h2] at hi; exact hi
    have h4 := h3 i hi1 hi
    simp only [List.getElem_enum] at h4
    exact process_repository_position commitsFor _ _ _ h4

/-- C3 witness: two well-formed raw records; the theorem yields a
successful collection with positions 1 and 2. -/
theorem C3_positions_follow_input_order_witness :
    (∀ r ∈ ([⟨some "x", some "ox", some 5, some 5, some 1, none⟩,
              ⟨some "y", some "oy", some 4, some 4, some 0, some (some "C")⟩] :
        List RawRepo), wellFormed r = true) ∧
    (∃ rs : List Repository,
      get_repositories (fun _ _ => [])
          [⟨some "x", some "ox", some 5, some 5, some 1, none⟩,
            ⟨some "y", some "oy", some 4, some 4, some 0, some (some "C")⟩]
        = .ok rs ∧
      rs.length
        = ([⟨some "x", some "ox", some 5, some 5, some 1, none⟩,
            ⟨some "y", some "oy", some 4, some 4, some 0, some (some "C")⟩] :
          List RawRepo).length ∧
      ∀ i (hi : i < rs.length), rs[i].position = i + 1) :=
  ⟨by decide,
    C3_positions_follow_input_order (fun _ _ => [])
      [⟨some "x", some "ox", some 5, some 5, some 1, none⟩,
        ⟨some "y", some "oy", some 4, some 4, some 0, some (some "C")⟩]
      (by decide)⟩

/-- C6: when some raw repository record lacks a required field (owner
login or one of the star/watcher/fork counts), the collection step fails
with the missing-key error instead of producing a partial record, and the
run issues zero insert calls to any of the three load operations: nothing
is persisted for that run. -/
theorem C6_malformed_record_aborts_run (commitsFor : String → String → List RawCommit)
    (top_repos : List RawRepo) (date_today : String) (b : Nat)
    (okR : List RepoRow → Bool) (okP : List PositionRow → Bool)
    (okC : List CommitRow → Bool)
    (h : ∃ r ∈ top_repos, wellFormed r = false) :
    (mainCalls commitsFor top_repos date_today b okR okP okC).1 = [] ∧
    ((mainCalls commitsFor top_repos date_today b okR okP okC).2).isSome = true := by
  obtain ⟨r, hr, hwf⟩ := h
  obtain ⟨i, hi, hget⟩ := List.mem_iff_getElem.mp hr
  have hx : ∃ x ∈ top_repos.enum.map
      (fun p => process_repository commitsFor p.2 (p.1 + 1)), ∃ e, x = .error e := by
    refine ⟨process_repository commitsFor r (i + 1), ?_, ?_⟩
    · refine List.mem_map.mpr ⟨(i, r), ?_, rfl⟩
      exact List.mk_mem_enum_iff_getElem?.mpr
        (by rw [List.getElem?_eq_getElem hi, hget])
    · exact process_repository_isError commitsFor r (i + 1) hwf
  obtain ⟨e, hge⟩ := gatherE_error_of_exists _ hx
  have hgr : get_repositories commitsFor top_repos = .error e := by
    rw [get_repositories]
    exact hge
  constructor <;> simp [mainCalls, hgr]

/-- C6 witness: one record missing its stargazers_count; the run returns
an error and the list of issued insert calls is empty. -/
theorem C6_malformed_record_aborts_run_witness :
    (∃ r ∈ ([⟨some "x", some "ox", none, some 5, some 1, none⟩] : List RawRepo),
      wellFormed r = false) ∧
    ((mainCalls (fun _ _ => []) [⟨some "x", some "ox", none, some 5, some 1, none⟩]
        "2024-01-01 00:00:00" 1000 (fun _ => true) (fun _ => true) (fun _ => true)).1
      = [] ∧
    ((mainCalls (fun _ _ => []) [⟨some "x", some "ox", none, some 5, some 1, none⟩]
        "2024-01-01 00:00:00" 1000 (fun _ => true) (fun _ => true) (fun _ => true)).2).isSome
      = true) :=
  ⟨by decide,
    C6_malformed_record_aborts_run (fun _ _ => [])
      [⟨some "x", some "ox", none, some 5, some 1, none⟩]
      "2024-01-01 00:00:00" 1000 (fun _ => true) (fun _ => true) (fun _ => true)
      (by decide)⟩

/-- C7: for every collected repository list and the single timestamp
captured once per invocation, every row assembled for the three persisted
record sets carries that same date_today value in its timestamp field: no
two rows produced by the same run differ in their timestamp. -/
theorem C7_single_run_timestamp (repos_data : List Repository) (date_today : String) :
    (∀ row ∈ buildRepoRows repos_data date_today, row.updated = date_today) ∧
    (∀ row ∈ buildPositionRows repos_data date_today, row.date = date_today) ∧
    (∀ row ∈ buildCommitRows repos_data date_today, row.date = date_today) := by
  refine ⟨fun row hrow => ?_, fun row hrow => ?_, fun row hrow => ?_⟩
  · obtain ⟨r, _, rfl⟩ := List.mem_map.mp hrow
    rfl
  · obtain ⟨r, _, rfl⟩ := List.mem_map.mp hrow
    rfl
  · obtain ⟨r, _, hm⟩ := List.mem_flatMap.mp hrow
    obtain ⟨ac, _, rfl⟩ := List.mem_map.mp hm
    rfl

/-- C7 witness: a one-repository run with a commit author; the repo row,
the position row and the commit row all carry the captured timestamp. -/
theorem C7_single_run_timestamp_witness :
    (RepoRow.mk "n" "o" 2 3 4 (some "L") "2024-01-01 00:00:00"
        ∈ buildRepoRows [⟨"n", "o", 1, 2, 3, 4, some "L", [⟨"a", 1⟩]⟩]
            "2024-01-01 00:00:00") ∧
    (CommitRow.mk "2024-01-01 00:00:00" "n" "a" 1
        ∈ buildCommitRows [⟨"n", "o", 1, 2, 3, 4, some "L", [⟨"a", 1⟩]⟩]
            "2024-01-01 00:00:00") ∧
    (RepoRow.mk "n" "o" 2 3 4 (some "L") "2024-01-01 00:00:00").updated
      = "2024-01-01 00:00:00" ∧
    (CommitRow.mk "2024-01-01 00:00:00" "n" "a" 1).date = "2024-01-01 00:00:00" :=
  ⟨by decide, by decide,
    (C7_single_run_timestamp [⟨"n", "o", 1, 2, 3, 4, some "L", [⟨"a", 1⟩]⟩]
        "2024-01-01 00:00:00").1
      (RepoRow.mk "n" "o" 2 3 4 (some "L") "2024-01-01 00:00:00") (by decide),
    (C7_single_run_timestamp [⟨"n", "o", 1, 2, 3, 4, some "L", [⟨"a", 1⟩]⟩]
        "2024-01-01 00:00:00").2.2
      (CommitRow.mk "2024-01-01 00:00:00" "n" "a" 1) (by decide)⟩

/-- C9: when a raw repository record is processed successfully, a
"language" key present with a null value yields a Repository whose
language is null (not the "Unknown" default), and the "Unknown" default
is substituted only when the "language" key is absent from the record. -/
theorem C9_language_null_not_defaulted (c : String → String → List RawCommit)
    (r : RawRepo) (pos : Nat) (repo : Repository)
    (h : process_repository c r pos = .ok repo) :
    (r.language = some none → repo.language = none) ∧
    (r.language = none → repo.language = some "Unknown") := by
  rcases r with ⟨n, ol, sc, wc, fc, lang⟩
  cases ol <;> cases sc <;> cases wc <;> cases fc <;> simp [process_repository] at h
  subst h
  constructor
  · intro hl
    have hl' : lang = some none := hl
    subst hl'
    rfl
  · intro hl
    have hl' : lang = none := hl
    subst hl'
    rfl

/-- C9 witness: a record whose language key is present but null processes
to a Repository with a null language, not "Unknown". -/
theorem C9_language_null_not_defaulted_witness :
    (process_repository (fun _ _ => [])
        ⟨some "r", some "o", some 1, some 2, some 3, some none⟩ 1
      = .ok ⟨"r", "o", 1, 1, 2, 3, none, []⟩) ∧
    (((⟨some "r", some "o", some 1, some 2, some 3, some none⟩ : RawRepo).language
          = some none →
        (⟨"r", "o", 1, 1, 2, 3, none, []⟩ : Repository).language = none) ∧
      ((⟨some "r", some "o", some 1, some 2, some 3, some none⟩ : RawRepo).language
          = none →
        (⟨"r", "o", 1, 1, 2, 3, none, []⟩ : Repository).language = some "Unknown")) :=
  ⟨rfl,
    C9_language_null_not_defaulted (fun _ _ => [])
      ⟨some "r", some "o", some 1, some 2, some 3, some none⟩ 1
      ⟨"r", "o", 1, 1, 2, 3, none, []⟩ rfl⟩

/-- C10: a raw repository record lacking the "name" field does not make
process_repository fail: the sentinel "UNKNOWN" is substituted as the
repository name, that sentinel is the repo argument of the commit lookup
(the aggregated commits are those returned for ("owner", "UNKNOWN")), and
processing completes normally with an ok result. -/
theorem C10_missing_name_uses_sentinel (c : String → String → List RawCommit)
    (r : RawRepo) (pos : Nat) (o : String) (s w f : Nat)
    (h1 : r.name = none) (h2 : r.owner_login = some o)
    (h3 : r.stargazers_count = some s) (h4 : r.watchers_count = some w)
    (h5 : r.forks_count = some f) :
    process_repository c r pos
      = .ok
          ⟨"UNKNOWN", o, pos, s, w, f, r.language.getD (some "Unknown"),
            (aggregateCommits (c o "UNKNOWN")).map
              (fun p => RepositoryAuthorCommitsNum.mk p.1 p.2)⟩ := by
  rcases r with ⟨n, ol, sc, wc, fc, lang⟩
  have h1' : n = none := h1
  have h2' : ol = some o := h2
  have h3' : sc = some s := h3
  have h4' : wc = some w := h4
  have h5' : fc = some f := h5
  subst h1' h2' h3' h4' h5'
  exact process_repository_eq_ok c none o s w f lang pos

/-- C10 witness: a nameless record processed with a commit feed that
echoes the looked-up repo name as the author login: the result is ok,
named "UNKNOWN", and its single author bucket is "UNKNOWN" — the commit
lookup received the sentinel. -/
theorem C10_missing_name_uses_sentinel_witness :
    ((⟨none, some "o", some 7, some 8, some 9, none⟩ : RawRepo).name = none) ∧
    (process_repository (fun _ rep => [⟨some (some rep)⟩])
        ⟨none, some "o", some 7, some 8, some 9, none⟩ 2
      = .ok
          ⟨"UNKNOWN", "o", 2, 7, 8, 9,
            (⟨none, some "o", some 7, some 8, some 9, none⟩ : RawRepo).language.getD
              (some "Unknown"),
            (aggregateCommits ((fun _ rep => [⟨some (some rep)⟩] :
                String → String → List RawCommit) "o" "UNKNOWN")).map
              (fun p => RepositoryAuthorCommitsNum.mk p.1 p.2)⟩) :=
  ⟨rfl,
    C10_missing_name_uses_sentinel (fun _ rep => [⟨some (some rep)⟩])
      ⟨none, some "o", some 7, some 8, some 9, none⟩ 2 "o" 7 8 9
      rfl rfl rfl rfl rfl⟩

/-- In a list sorted by ≤, every element is at most the last element. -/
theorem sorted_le_getLast :
    ∀ (l : List ℚ) (hne : l ≠ []), l.Sorted (· ≤ ·) →
      ∀ x ∈ l, x ≤ l.getLast hne := by
  intro l
  induction l with
  | nil => intro hne; exact absurd rfl hne
  | cons a rest ih =>
    intro hne hs x hx
    cases rest with
    | nil =>
      have hx' : x = a := by simpa using hx
      subst hx'
      simp [List.getLast]
    | cons b rest2 =>
      have hne2 : b :: rest2 ≠ [] := by simp
      rw [List.getLast_cons hne2]
      rcases List.mem_cons.mp hx with rfl | hx2
      · have hab : x ≤ b := (List.pairwise_cons.mp hs).1 b (List.mem_cons_self b rest2)
        have hbl : b ≤ (b :: rest2).getLast hne2 :=
          ih hne2 ((List.pairwise_cons.mp hs).2) b (List.mem_cons_self b rest2)
        exact le_trans hab hbl
      · exact ih hne2 ((List.pairwise_cons.mp hs).2) x hx2

/-- In a list sorted by ≤, the head is at most every element. -/
theorem sorted_head_le :
    ∀ (l : List ℚ) (hne : l ≠ []), l.Sorted (· ≤ ·) →
      ∀ x ∈ l, l.head hne ≤ x := by
  intro l
  cases l with
  | nil => intro hne; exact absurd rfl hne
  | cons a rest =>
    intro hne hs x hx
    rcases List.mem_cons.mp hx with rfl | hx2
    · exact le_refl x
    · exact (List.pairwise_cons.mp hs).1 x hx2

/-- C8: modelled from the spec (the rate limiter is an external library).
If a sorted trace of 2*R acquisition timestamps obeys the rate cap — at
most R acquisitions in every rolling 1-second window — then the last
acquisition happens at least 1 second after the first: completing all
2*R immediate acquisitions takes at least 1 second of wall-clock time,
forced by the rate cap alone (no concurrency constraint appears in the
hypotheses, matching a concurrency cap of at least 2*R that never
blocks). -/
theorem C8_rate_cap_forces_one_second (R : Nat) (hR : 1 ≤ R) (times : List ℚ)
    (hne : times ≠ []) (hlen : times.length = 2 * R)
    (hsorted : times.Sorted (· ≤ ·)) (hadm : rateAdmissible R times) :
    1 ≤ times.getLast hne - times.head hne := by
  by_contra hlt
  push_neg at hlt
  have hall : ∀ x ∈ times, times.head hne ≤ x ∧ x < times.head hne + 1 := by
    intro x hx
    refine ⟨sorted_head_le times hne hsorted x hx, ?_⟩
    have h1 := sorted_le_getLast times hne hsorted x hx
    linarith
  have hcount : windowCount times (times.head hne) = times.length := by
    rw [windowCount, List.countP_eq_length]
    intro x hx
    obtain ⟨ha, hb⟩ := hall x hx
    simp [ha, hb]
  have h2 := hadm (times.head hne)
  rw [hcount, hlen] at h2
  omega

/-- C8 witness: with R = 1, the admissible sorted trace [0, 1] of 2*R = 2
acquisitions spans exactly 1 second. -/
theorem C8_rate_cap_forces_one_second_witness :
    (([(0 : ℚ), 1] : List ℚ) ≠ []) ∧
    ([(0 : ℚ), 1] : List ℚ).length = 2 * 1 ∧
    ([(0 : ℚ), 1] : List ℚ).Sorted (· ≤ ·) ∧
    rateAdmissible 1 [(0 : ℚ), 1] ∧
    1 ≤ ([(0 : ℚ), 1] : List ℚ).getLast (by simp) -
      ([(0 : ℚ), 1] : List ℚ).head (by simp) := by
  have hadm : rateAdmissible 1 [(0 : ℚ), 1] := by
    intro t
    simp only [windowCount, List.countP_cons, List.countP_nil]
    by_cases ha : t ≤ (0 : ℚ) ∧ (0 : ℚ) < t + 1
    · have hb : ¬(t ≤ (1 : ℚ) ∧ (1 : ℚ) < t + 1) := by
        rintro ⟨_, hb2⟩
        obtain ⟨ha1, _⟩ := ha
        linarith
      simp only [Bool.and_eq_true, decide_eq_true_eq]
      rw [if_pos ha, if_neg hb]
    · simp only [Bool.and_eq_true, decide_eq_true_eq]
      rw [if_neg ha]
      split_ifs <;> norm_num
  refine ⟨by simp, by simp, ?_, hadm, ?_⟩
  · simp [List.Sorted]
  · exact C8_rate_cap_forces_one_second 1 le_rfl [(0 : ℚ), 1] (by simp)
      (by simp) (by simp [List.Sorted]) hadm
